import Mathlib

/-!
# WebTimeTracker — verification of the sync/reconciliation core

Shallow embedding of the task data model, the local task store, the sync
service (`src/services/sync.js`) and the reconciliation operations of
`TimeTrackerApp` (`src/app.js`).  Tasks are tree-shaped records (a root task
owns a list of subtasks); the local store and the mock server store are
id-keyed collections modelled as lists of root tasks.
-/

set_option autoImplicit false

namespace WebTimeTracker

/-- One entry of a task's `timerLogs` array. -/
structure TimerLog where
  event : String
  timestamp : String
  elapsedSeconds : Int
  deriving DecidableEq, Repr

/-- The `Task` record.  `sessionDate` and `timerLogs` may be absent
(`undefined`) in the source's records, hence `Option`; `subtasks` is the
(possibly empty) list of child tasks.  Recursive because subtasks are tasks. -/
inductive Task : Type where
  | mk (id name : String) (duration createdAt updatedAt : Int)
       (sessionDate : Option String) (timerLogs : Option (List TimerLog))
       (subtasks : List Task) : Task
  deriving Repr

namespace Task

def id : Task → String
  | .mk i _ _ _ _ _ _ _ => i

def name : Task → String
  | .mk _ n _ _ _ _ _ _ => n

def duration : Task → Int
  | .mk _ _ d _ _ _ _ _ => d

def createdAt : Task → Int
  | .mk _ _ _ c _ _ _ _ => c

def updatedAt : Task → Int
  | .mk _ _ _ _ u _ _ _ => u

def sessionDate : Task → Option String
  | .mk _ _ _ _ _ sd _ _ => sd

def timerLogs : Task → Option (List TimerLog)
  | .mk _ _ _ _ _ _ tl _ => tl

def subtasks : Task → List Task
  | .mk _ _ _ _ _ _ _ st => st

def withName (t : Task) (n : String) : Task :=
  match t with
  | .mk i _ d c u sd tl st => .mk i n d c u sd tl st

def withDuration (t : Task) (d : Int) : Task :=
  match t with
  | .mk i n _ c u sd tl st => .mk i n d c u sd tl st

def withUpdatedAt (t : Task) (u : Int) : Task :=
  match t with
  | .mk i n d c _ sd tl st => .mk i n d c u sd tl st

def withSessionDate (t : Task) (sd : Option String) : Task :=
  match t with
  | .mk i n d c u _ tl st => .mk i n d c u sd tl st

def withTimerLogs (t : Task) (tl : Option (List TimerLog)) : Task :=
  match t with
  | .mk i n d c u sd _ st => .mk i n d c u sd tl st

def withSubtasks (t : Task) (st : List Task) : Task :=
  match t with
  | .mk i n d c u sd tl _ => .mk i n d c u sd tl st

@[simp] theorem id_mk (i n : String) (d c u : Int) (sd : Option String)
    (tl : Option (List TimerLog)) (st : List Task) :
    (Task.mk i n d c u sd tl st).id = i := rfl

@[simp] theorem name_mk (i n : String) (d c u : Int) (sd : Option String)
    (tl : Option (List TimerLog)) (st : List Task) :
    (Task.mk i n d c u sd tl st).name = n := rfl

@[simp] theorem duration_mk (i n : String) (d c u : Int) (sd : Option String)
    (tl : Option (List TimerLog)) (st : List Task) :
    (Task.mk i n d c u sd tl st).duration = d := rfl

@[simp] theorem updatedAt_mk (i n : String) (d c u : Int) (sd : Option String)
    (tl : Option (List TimerLog)) (st : List Task) :
    (Task.mk i n d c u sd tl st).updatedAt = u := rfl

@[simp] theorem sessionDate_mk (i n : String) (d c u : Int) (sd : Option String)
    (tl : Option (List TimerLog)) (st : List Task) :
    (Task.mk i n d c u sd tl st).sessionDate = sd := rfl

@[simp] theorem timerLogs_mk (i n : String) (d c u : Int) (sd : Option String)
    (tl : Option (List TimerLog)) (st : List Task) :
    (Task.mk i n d c u sd tl st).timerLogs = tl := rfl

@[simp] theorem subtasks_mk (i n : String) (d c u : Int) (sd : Option String)
    (tl : Option (List TimerLog)) (st : List Task) :
    (Task.mk i n d c u sd tl st).subtasks = st := rfl

@[simp] theorem id_withSessionDate (t : Task) (sd : Option String) :
    (t.withSessionDate sd).id = t.id := by cases t ; rfl

@[simp] theorem id_withTimerLogs (t : Task) (tl : Option (List TimerLog)) :
    (t.withTimerLogs tl).id = t.id := by cases t ; rfl

@[simp] theorem id_withSubtasks (t : Task) (st : List Task) :
    (t.withSubtasks st).id = t.id := by cases t ; rfl

@[simp] theorem id_withDuration (t : Task) (d : Int) :
    (t.withDuration d).id = t.id := by cases t ; rfl

@[simp] theorem id_withUpdatedAt (t : Task) (u : Int) :
    (t.withUpdatedAt u).id = t.id := by cases t ; rfl

@[simp] theorem subtasks_withSubtasks (t : Task) (st : List Task) :
    (t.withSubtasks st).subtasks = st := by cases t ; rfl

@[simp] theorem duration_withDuration (t : Task) (d : Int) :
    (t.withDuration d).duration = d := by cases t ; rfl

@[simp] theorem duration_withTimerLogs (t : Task) (tl : Option (List TimerLog)) :
    (t.withTimerLogs tl).duration = t.duration := by cases t ; rfl

@[simp] theorem timerLogs_withTimerLogs (t : Task) (tl : Option (List TimerLog)) :
    (t.withTimerLogs tl).timerLogs = tl := by cases t ; rfl

@[simp] theorem timerLogs_withDuration (t : Task) (d : Int) :
    (t.withDuration d).timerLogs = t.timerLogs := by cases t ; rfl

@[simp] theorem subtasks_withDuration (t : Task) (d : Int) :
    (t.withDuration d).subtasks = t.subtasks := by cases t ; rfl

@[simp] theorem duration_withSubtasks (t : Task) (st : List Task) :
    (t.withSubtasks st).duration = t.duration := by cases t ; rfl

@[simp] theorem updatedAt_withSubtasks (t : Task) (st : List Task) :
    (t.withSubtasks st).updatedAt = t.updatedAt := by cases t ; rfl

@[simp] theorem updatedAt_withDuration (t : Task) (d : Int) :
    (t.withDuration d).updatedAt = t.updatedAt := by cases t ; rfl

@[simp] theorem name_withSubtasks (t : Task) (st : List Task) :
    (t.withSubtasks st).name = t.name := by cases t ; rfl

@[simp] theorem name_withDuration (t : Task) (d : Int) :
    (t.withDuration d).name = t.name := by cases t ; rfl

@[simp] theorem subtasks_withUpdatedAt (t : Task) (u : Int) :
    (t.withUpdatedAt u).subtasks = t.subtasks := by cases t ; rfl

@[simp] theorem name_withUpdatedAt (t : Task) (u : Int) :
    (t.withUpdatedAt u).name = t.name := by cases t ; rfl

@[simp] theorem duration_withUpdatedAt (t : Task) (u : Int) :
    (t.withUpdatedAt u).duration = t.duration := by cases t ; rfl

@[simp] theorem updatedAt_withUpdatedAt (t : Task) (u : Int) :
    (t.withUpdatedAt u).updatedAt = u := by cases t ; rfl

def withId (t : Task) (i : String) : Task :=
  match t with
  | .mk _ n d c u sd tl st => .mk i n d c u sd tl st

def withCreatedAt (t : Task) (c : Int) : Task :=
  match t with
  | .mk i n d _ u sd tl st => .mk i n d c u sd tl st

@[simp] theorem id_withId (t : Task) (i : String) :
    (t.withId i).id = i := by cases t ; rfl

@[simp] theorem id_withName (t : Task) (n : String) :
    (t.withName n).id = t.id := by cases t ; rfl

@[simp] theorem id_withCreatedAt (t : Task) (c : Int) :
    (t.withCreatedAt c).id = t.id := by cases t ; rfl

@[simp] theorem name_withName (t : Task) (n : String) :
    (t.withName n).name = n := by cases t ; rfl

@[simp] theorem name_withCreatedAt (t : Task) (c : Int) :
    (t.withCreatedAt c).name = t.name := by cases t ; rfl

@[simp] theorem name_withId (t : Task) (i : String) :
    (t.withId i).name = t.name := by cases t ; rfl

@[simp] theorem createdAt_withCreatedAt (t : Task) (c : Int) :
    (t.withCreatedAt c).createdAt = c := by cases t ; rfl

@[simp] theorem createdAt_withUpdatedAt (t : Task) (u : Int) :
    (t.withUpdatedAt u).createdAt = t.createdAt := by cases t ; rfl

@[simp] theorem subtasks_withName (t : Task) (n : String) :
    (t.withName n).subtasks = t.subtasks := by cases t ; rfl

@[simp] theorem duration_withName (t : Task) (n : String) :
    (t.withName n).duration = t.duration := by cases t ; rfl

@[simp] theorem duration_withId (t : Task) (i : String) :
    (t.withId i).duration = t.duration := by cases t ; rfl

@[simp] theorem duration_withCreatedAt (t : Task) (c : Int) :
    (t.withCreatedAt c).duration = t.duration := by cases t ; rfl

@[simp] theorem subtasks_withId (t : Task) (i : String) :
    (t.withId i).subtasks = t.subtasks := by cases t ; rfl

@[simp] theorem subtasks_withCreatedAt (t : Task) (c : Int) :
    (t.withCreatedAt c).subtasks = t.subtasks := by cases t ; rfl

end Task

/-- The local task store (IndexedDB `tasks` object store keyed by `id`),
modelled as the list of records `getAllTasks` returns. -/
abbrev Store : Type := List Task

/-- Lookup `store.get(id)`: the record stored under key `id`. -/
def topLookup (store : Store) (id : String) : Option Task :=
  List.find? (fun t => t.id == id) store

/-- Sync status values returned by `SyncService.compareTasks`. -/
inductive SyncStatus : Type where
  | consistent
  | inconsistent
  | missing
  deriving DecidableEq, Repr

/-- Source function `SyncService.compareTasks(local, server)` from `src/services/sync.js`:
`missing` when the server value is absent; else field-by-field comparison of
`duration`, `name` and `timerLogs.length` (logs defaulted to `[]`). -/
def compareTasks (l : Task) (server : Option Task) : SyncStatus :=
  match server with
  | none => SyncStatus.missing
  | some s =>
      let isDurationMatch := l.duration = s.duration
      let isNameMatch := l.name = s.name
      let localLogs := l.timerLogs.getD []
      let serverLogs := s.timerLogs.getD []
      let isLogsCountMatch := localLogs.length = serverLogs.length
      if isDurationMatch ∧ isNameMatch ∧ isLogsCountMatch then
        SyncStatus.consistent
      else
        SyncStatus.inconsistent

/-- The list of keys (task ids) present in a store. -/
def topIds (store : Store) : List String :=
  store.map Task.id

/-- Replace every record whose key equals `task.id` by `task`. -/
def replaceById (store : Store) (task : Task) : Store :=
  store.map (fun t => if t.id == task.id then task else t)

/-- Modelled from the spec: the Local Task Store operation
`overwrite(task) -> Task` (called `storage.overwriteTask` throughout
`src/app.js`) is not defined in the provided `src/services/storage.js`; per the
spec it is an upsert backed by IndexedDB `put`: it persists the record under
its id whether or not a record with that id already exists, and returns the
task.  If the key exists the stored record is replaced, otherwise the record
is added. -/
def overwriteTask (store : Store) (task : Task) : Store × Task :=
  (if store.any (fun t => t.id == task.id) then
    replaceById store task
  else
    store ++ [task], task)

/-- Source method `StorageService.saveTask` (IndexedDB `add`): fails when the key exists. -/
def saveTask (store : Store) (task : Task) : Option Store :=
  if store.any (fun t => t.id == task.id) then
    none
  else
    some (store ++ [task])

/-- Source method `StorageService.deleteTask` (IndexedDB `delete`): removes the record
stored under the key. -/
def deleteFromStore (store : Store) (id : String) : Store :=
  store.filter (fun t => !(t.id == id))

theorem replaceById_cons (a : Task) (rest : Store) (task : Task) :
    replaceById (a :: rest) task
      = (if a.id == task.id then task else a) :: replaceById rest task := rfl

theorem find?_replaceById_self (store : Store) (task : Task)
    (h : store.any (fun t => t.id == task.id) = true) :
    List.find? (fun t => t.id == task.id) (replaceById store task)
      = some task := by
  induction store with
  | nil => simp at h
  | cons a rest ih =>
      rw [replaceById_cons]
      by_cases ha : (a.id == task.id) = true
      · rw [if_pos ha]
        exact List.find?_cons_of_pos _ (by simp)
      · rw [if_neg ha, List.find?_cons_of_neg (p := fun t : Task => t.id == task.id) _ ha]
        have hrest : rest.any (fun t => t.id == task.id) = true := by
          simpa [List.any_cons, ha] using h
        exact ih hrest

theorem find?_replaceById_ne (store : Store) (task : Task) (i : String)
    (h : i ≠ task.id) :
    List.find? (fun t => t.id == i) (replaceById store task)
      = List.find? (fun t => t.id == i) store := by
  have htask : ¬ (task.id == i) = true := by
    simp only [beq_iff_eq]
    exact fun hc => h hc.symm
  induction store with
  | nil => rfl
  | cons a rest ih =>
      rw [replaceById_cons]
      by_cases ha : (a.id == task.id) = true
      · have ha' : ¬ (a.id == i) = true := by
          simp only [beq_iff_eq] at ha htask ⊢
          rw [ha]; exact htask
        rw [if_pos ha, List.find?_cons_of_neg (p := fun t : Task => t.id == i) _ htask,
          List.find?_cons_of_neg (p := fun t : Task => t.id == i) _ ha', ih]
      · rw [if_neg ha]
        by_cases hai : (a.id == i) = true
        · rw [List.find?_cons_of_pos (p := fun t : Task => t.id == i) _ hai,
            List.find?_cons_of_pos (p := fun t : Task => t.id == i) _ hai]
        · rw [List.find?_cons_of_neg (p := fun t : Task => t.id == i) _ hai,
            List.find?_cons_of_neg (p := fun t : Task => t.id == i) _ hai, ih]

theorem topIds_replaceById (store : Store) (task : Task) :
    topIds (replaceById store task) = topIds store := by
  unfold topIds replaceById
  rw [List.map_map]
  apply List.map_congr_left
  intro x _
  by_cases hx : (x.id == task.id) = true
  · rw [Function.comp_apply, if_pos hx]
    exact (beq_iff_eq.mp hx).symm
  · rw [Function.comp_apply, if_neg hx]

theorem topLookup_overwriteTask_self (store : Store) (task : Task) :
    topLookup (overwriteTask store task).1 task.id = some task := by
  unfold overwriteTask topLookup
  by_cases h : store.any (fun t => t.id == task.id) = true
  · simpa [h] using find?_replaceById_self store task h
  · rw [if_neg (by simpa using h), List.find?_append]
    have hnone : List.find? (fun t => t.id == task.id) store = none := by
      rw [List.find?_eq_none]
      intro x hx
      exact fun hc => h (List.any_eq_true.mpr ⟨x, hx, hc⟩)
    simp [hnone]

theorem topLookup_overwriteTask_ne (store : Store) (task : Task) (i : String)
    (h : i ≠ task.id) :
    topLookup (overwriteTask store task).1 i = topLookup store i := by
  unfold overwriteTask topLookup
  by_cases hany : store.any (fun t => t.id == task.id) = true
  · simpa [hany] using find?_replaceById_ne store task i h
  · rw [if_neg (by simpa using hany), List.find?_append]
    have : List.find? (fun t => t.id == i) [task] = none := by
      have : ¬ (task.id == i) = true := by
        simp only [beq_iff_eq]
        exact fun hc => h hc.symm
      simp [this]
    simp [this]

theorem topIds_overwriteTask_of_mem (store : Store) (task : Task)
    (h : store.any (fun t => t.id == task.id) = true) :
    topIds (overwriteTask store task).1 = topIds store := by
  unfold overwriteTask
  simpa [h] using topIds_replaceById store task

theorem topIds_overwriteTask_of_not_mem (store : Store) (task : Task)
    (h : ¬ store.any (fun t => t.id == task.id) = true) :
    topIds (overwriteTask store task).1 = topIds store ++ [task.id] := by
  unfold overwriteTask topIds
  simp [h]

theorem mem_topIds_overwriteTask (store : Store) (task : Task) :
    task.id ∈ topIds (overwriteTask store task).1 := by
  by_cases h : store.any (fun t => t.id == task.id) = true
  · rw [topIds_overwriteTask_of_mem store task h]
    rcases List.any_eq_true.mp h with ⟨x, hx, hbeq⟩
    exact (beq_iff_eq.mp hbeq) ▸ List.mem_map_of_mem Task.id hx
  · rw [topIds_overwriteTask_of_not_mem store task h]
    simp

theorem mem_topIds_overwriteTask_of_mem (store : Store) (task : Task)
    (i : String) (h : i ∈ topIds store) :
    i ∈ topIds (overwriteTask store task).1 := by
  by_cases hany : store.any (fun t => t.id == task.id) = true
  · rwa [topIds_overwriteTask_of_mem store task hany]
  · rw [topIds_overwriteTask_of_not_mem store task hany]
    exact List.mem_append_left _ h

/-- C1: the Local Task Store `overwrite(task)` operation upserts: for every
task the call succeeds and returns the task, persisting the record under its
id whether or not a record with that id already exists in the store — in
particular overwriting again over a store that now surely contains the id
still succeeds. -/
theorem overwrite_upserts (store : Store) (t : Task) :
    (overwriteTask store t).2 = t ∧
    topLookup (overwriteTask store t).1 t.id = some t ∧
    topLookup (overwriteTask (overwriteTask store t).1 t).1 t.id = some t :=
  ⟨rfl, topLookup_overwriteTask_self store t,
    topLookup_overwriteTask_self (overwriteTask store t).1 t⟩

/-- C2: `compareTasks(l, server)` returns `missing` when the server value is
absent, and otherwise returns `consistent` exactly when `duration`, `name`
and the `timerLogs` lengths (defaulted to empty) all match, `inconsistent`
otherwise; in particular `compareTasks t t = consistent`. -/
theorem compareTasks_spec (l s : Task) :
    compareTasks l none = SyncStatus.missing ∧
    (compareTasks l (some s) = SyncStatus.consistent ↔
      (l.duration = s.duration ∧ l.name = s.name ∧
        (l.timerLogs.getD []).length = (s.timerLogs.getD []).length)) ∧
    (compareTasks l (some s) = SyncStatus.consistent ∨
      compareTasks l (some s) = SyncStatus.inconsistent) ∧
    compareTasks l (some l) = SyncStatus.consistent := by
  refine ⟨rfl, ?_, ?_, ?_⟩
  · unfold compareTasks
    by_cases h : l.duration = s.duration ∧ l.name = s.name ∧
        (l.timerLogs.getD []).length = (s.timerLogs.getD []).length
    · simp [h]
    · simp [h]
  · unfold compareTasks
    by_cases h : l.duration = s.duration ∧ l.name = s.name ∧
        (l.timerLogs.getD []).length = (s.timerLogs.getD []).length
    · left
      simp [h]
    · right
      simp [h]
  · unfold compareTasks
    simp

/-- Closed instance of the C2 theorem, discharging its biconditionals at
a concrete pair of tasks. -/
theorem compareTasks_spec_witness :
    compareTasks (Task.mk "b" "T" 30 0 0 none none []) none
        = SyncStatus.missing ∧
      compareTasks (Task.mk "b" "T" 30 0 0 none none [])
        (some (Task.mk "b" "T" 31 0 0 none none []))
        = SyncStatus.inconsistent ∧
      compareTasks (Task.mk "b" "T" 30 0 0 none none [])
        (some (Task.mk "b" "T" 30 0 0 none none []))
        = SyncStatus.consistent := by
  refine ⟨(compareTasks_spec (Task.mk "b" "T" 30 0 0 none none [])
    (Task.mk "b" "T" 31 0 0 none none [])).1, ?_, ?_⟩
  · rcases (compareTasks_spec (Task.mk "b" "T" 30 0 0 none none [])
      (Task.mk "b" "T" 31 0 0 none none [])).2.2.1 with h | h
    · exfalso
      have := (compareTasks_spec (Task.mk "b" "T" 30 0 0 none none [])
        (Task.mk "b" "T" 31 0 0 none none [])).2.1.mp h
      simp at this
    · exact h
  · exact (compareTasks_spec (Task.mk "b" "T" 30 0 0 none none [])
      (Task.mk "b" "T" 30 0 0 none none [])).2.2.2

/-! ## Merge-on-load (`TimeTrackerApp.loadTasks`) -/

/-- Result of `loadTasks`: the merged local store and the rendered task list
with the per-task transient sync status. -/
structure LoadResult where
  store : Store
  displayed : List (Task × SyncStatus)

/-- Materialization of a server-only task inside the merge loop of
`loadTasks`: the server record with `sessionDate` forced to the current
session and `timerLogs` defaulted to `[]`. -/
def materialize (st : Task) (currentSession : String) : Task :=
  (st.withSessionDate (some currentSession)).withTimerLogs
    (some (st.timerLogs.getD []))

@[simp] theorem id_materialize (st : Task) (cs : String) :
    (materialize st cs).id = st.id := by
  unfold materialize
  simp

/-- The auto-download loop of `loadTasks`: walk the fetched server tasks and
persist (via `overwriteTask`) every one whose id is missing from the id map
built from the pre-merge local store. -/
def importLoop (localMap : List String) (currentSession : String) :
    Store → List Task → Store
  | acc, [] => acc
  | acc, st :: rest =>
      importLoop localMap currentSession
        (if localMap.contains st.id then acc
         else (overwriteTask acc (materialize st currentSession)).1) rest

/-- Steps 2–3 of the merge strategy in `loadTasks`. -/
def mergeImport (localRaw : Store) (serverTasks : List Task)
    (currentSession : String) : Store :=
  importLoop (topIds localRaw) currentSession localRaw serverTasks

/-- The session-partition filter of `loadTasks`: explicit `sessionDate` must
equal the current session; records with no `sessionDate` pass only when the
current session is today. -/
def sessionFilter (task : Task) (currentSession today : String) : Bool :=
  match task.sessionDate with
  | some d => d == currentSession
  | none => currentSession == today

/-- Embedding of `TimeTrackerApp.loadTasks` (src/app.js).  `serverFetch = none` models the
server fetch rejecting (offline): the merge loop is skipped and the status
pass runs against an empty server list. -/
def loadTasks (localStore : Store) (serverFetch : Option (List Task))
    (currentSession today : String) : LoadResult :=
  let serverTasks := serverFetch.getD []
  let merged :=
    match serverFetch with
    | none => localStore
    | some sts => mergeImport localStore sts currentSession
  let tasks := merged.filter (fun task => sessionFilter task currentSession today)
  { store := merged
    displayed := tasks.map (fun task =>
      (task, compareTasks task (serverTasks.find? (fun st => st.id == task.id)))) }

theorem mem_topIds_importLoop (m : List String) (cs : String) (acc : Store)
    (l : List Task) (i : String) (h : i ∈ topIds acc) :
    i ∈ topIds (importLoop m cs acc l) := by
  induction l generalizing acc with
  | nil => exact h
  | cons st rest ih =>
      unfold importLoop
      refine ih _ ?_
      by_cases hc : m.contains st.id
      · rw [if_pos hc]
        exact h
      · rw [if_neg hc]
        exact mem_topIds_overwriteTask_of_mem _ _ _ h

theorem mem_ids_of_mem_importLoop (m : List String) (cs : String) (acc : Store)
    (l : List Task) (st : Task) (hst : st ∈ l)
    (hmap : ∀ i ∈ m, i ∈ topIds acc) :
    st.id ∈ topIds (importLoop m cs acc l) := by
  induction l generalizing acc with
  | nil => cases hst
  | cons a rest ih =>
      unfold importLoop
      rcases List.mem_cons.mp hst with rfl | hrest
      · by_cases hc : m.contains st.id
        · rw [if_pos hc]
          exact mem_topIds_importLoop m cs acc rest st.id
            (hmap st.id (List.mem_of_elem_eq_true hc))
        · rw [if_neg hc]
          apply mem_topIds_importLoop
          simpa using mem_topIds_overwriteTask acc (materialize st cs)
      · refine ih _ hrest ?_
        intro i hi
        by_cases hc : m.contains a.id
        · rw [if_pos hc]
          exact hmap i hi
        · rw [if_neg hc]
          exact mem_topIds_overwriteTask_of_mem _ _ _ (hmap i hi)

theorem importLoop_no_op (m : List String) (cs : String) (acc : Store)
    (l : List Task) (h : ∀ st ∈ l, st.id ∈ m) :
    importLoop m cs acc l = acc := by
  induction l with
  | nil => rfl
  | cons a rest ih =>
      unfold importLoop
      rw [if_pos (List.elem_eq_true_of_mem (h a (List.mem_cons_self a rest)))]
      exact ih (fun st hst => h st (List.mem_cons_of_mem a hst))

theorem topLookup_importLoop_of_ne (m : List String) (cs : String)
    (acc : Store) (l : List Task) (i : String) (h : ∀ x ∈ l, x.id ≠ i) :
    topLookup (importLoop m cs acc l) i = topLookup acc i := by
  induction l generalizing acc with
  | nil => rfl
  | cons a rest ih =>
      unfold importLoop
      rw [ih _ (fun x hx => h x (List.mem_cons_of_mem a hx))]
      by_cases hc : m.contains a.id
      · rw [if_pos hc]
      · rw [if_neg hc]
        exact topLookup_overwriteTask_ne acc (materialize a cs) i
          (by simpa using fun hi => (h a (List.mem_cons_self a rest)) hi.symm)

theorem topLookup_importLoop_materialized (m : List String) (cs : String)
    (acc : Store) (l : List Task) (st : Task) (hst : st ∈ l)
    (hnd : (l.map Task.id).Nodup) (hm : st.id ∉ m) :
    topLookup (importLoop m cs acc l) st.id = some (materialize st cs) := by
  induction l generalizing acc with
  | nil => cases hst
  | cons a rest ih =>
      have hnd' : (rest.map Task.id).Nodup := (List.nodup_cons.mp hnd).2
      rcases List.mem_cons.mp hst with rfl | hrest
      · have hc : ¬ m.contains st.id = true := by
          intro hc
          exact hm (List.mem_of_elem_eq_true hc)
        unfold importLoop
        rw [if_neg hc]
        have hne : ∀ x ∈ rest, x.id ≠ st.id := by
          intro x hx hc'
          exact (List.nodup_cons.mp hnd).1 (hc' ▸ List.mem_map_of_mem Task.id hx)
        rw [topLookup_importLoop_of_ne m cs _ rest st.id hne]
        have := topLookup_overwriteTask_self acc (materialize st cs)
        rwa [id_materialize] at this
      · unfold importLoop
        exact ih _ hrest hnd'

/-- The remote store is reachable only through this read in `loadTasks`:
the mock server filters its records by `sessionDate` (`fetchServerTasks`). -/
def fetchServerTasks (server : Store) (dateString : String) : List Task :=
  server.filter (fun t => t.sessionDate == some dateString)

/-- The combined client/server state. -/
structure World where
  localStore : Store
  serverStore : Store

/-- Run of `loadTasks` against a full world: the server list is fetched from the
server store (or the fetch rejects when `offline`), the merge writes only to
the local store, and the server store is carried through untouched — the
translation of `loadTasks` contains no `postTask`/`deleteServerTask` call. -/
def loadTasksWorld (w : World) (currentSession today : String)
    (offline : Bool) : World × List (Task × SyncStatus) :=
  let serverFetch :=
    if offline then none else some (fetchServerTasks w.serverStore currentSession)
  let r := loadTasks w.localStore serverFetch currentSession today
  (⟨r.store, w.serverStore⟩, r.displayed)

/-- The server task used in the C3 scenario:
`{id:"a", name:"X", duration:60, sessionDate:"2024-01-01"}`. -/
def srvA : Task :=
  Task.mk "a" "X" 60 0 0 (some "2024-01-01") none []

/-- C3: merge-on-load materializes every fetched server task whose id is
absent locally via `overwrite`, forcing `sessionDate` to the current session
and defaulting `timerLogs` to empty; the displayed set contains exactly the
merged-store tasks passing the session filter, each paired with the
`compareTasks` status against the fetched set; and the claim's concrete
scenario holds. -/
theorem loadTasks_merge (localStore : Store) (serverTasks : List Task)
    (cs today : String) :
    (∀ st ∈ serverTasks, (serverTasks.map Task.id).Nodup →
      st.id ∉ topIds localStore →
      topLookup (loadTasks localStore (some serverTasks) cs today).store st.id
        = some (materialize st cs)) ∧
    (∀ st : Task, (materialize st cs).sessionDate = some cs ∧
      (materialize st cs).timerLogs = some (st.timerLogs.getD [])) ∧
    (∀ (t : Task) (s' : SyncStatus),
      ((t, s') ∈ (loadTasks localStore (some serverTasks) cs today).displayed ↔
        (t ∈ (loadTasks localStore (some serverTasks) cs today).store ∧
          sessionFilter t cs today = true ∧
          s' = compareTasks t
            (serverTasks.find? (fun st => st.id == t.id))))) ∧
    (((topLookup (loadTasks [] (some [srvA]) "2024-01-01" "2024-01-02").store
        "a").map Task.name = some "X") ∧
      (loadTasks [] (some [srvA]) "2024-01-01" "2024-01-02").displayed.map
        (fun p => (p.1.id, p.2)) = [("a", SyncStatus.consistent)]) := by
  refine ⟨?_, ?_, ?_, ?_, ?_⟩
  · intro st hst hnd habs
    exact topLookup_importLoop_materialized (topIds localStore) cs localStore
      serverTasks st hst hnd habs
  · intro st
    unfold materialize
    constructor
    · cases st ; rfl
    · simp
  · intro t s'
    show (t, s') ∈ (List.map _ (List.filter _ _)) ↔ _
    rw [List.mem_map]
    constructor
    · rintro ⟨x, hx, heq⟩
      obtain ⟨hx1, hx2⟩ := List.mem_filter.mp hx
      obtain ⟨rfl, rfl⟩ := Prod.mk.injEq .. |>.mp heq
      exact ⟨hx1, hx2, rfl⟩
    · rintro ⟨ht, hf, rfl⟩
      exact ⟨t, List.mem_filter.mpr ⟨ht, hf⟩, rfl⟩
  · rfl
  · rfl

/-- Closed instance of the C3 theorem: the materialization clause applied
to the scenario store, discharging the membership, nodup and absence
hypotheses. -/
theorem loadTasks_merge_witness :
    srvA ∈ [srvA] ∧ ([srvA].map Task.id).Nodup ∧
      srvA.id ∉ topIds ([] : Store) ∧
      topLookup (loadTasks [] (some [srvA]) "2024-01-01" "2024-01-02").store
          srvA.id = some (materialize srvA "2024-01-01") :=
  ⟨List.mem_cons_self srvA [], by simp, by simp [topIds],
    (loadTasks_merge [] [srvA] "2024-01-01" "2024-01-02").1 srvA
      (List.mem_cons_self srvA []) (by simp) (by simp [topIds])⟩

/-- In `loadTasks`, the displayed list is a function of the merged store and
the fetched server list. -/
theorem loadTasks_displayed_eq (localStore : Store)
    (serverFetch : Option (List Task)) (cs today : String) :
    (loadTasks localStore serverFetch cs today).displayed
      = ((loadTasks localStore serverFetch cs today).store.filter
          (fun task => sessionFilter task cs today)).map
        (fun task => (task, compareTasks task
          ((serverFetch.getD []).find? (fun st => st.id == task.id)))) := by
  cases serverFetch
  · rfl
  · rfl

/-- C4: merge-on-load is idempotent — for every local store state and every
server fetch outcome, a second `loadTasks` run with no intervening mutation
leaves the local task set unchanged and assigns every task the same
`syncStatus`. -/
theorem loadTasks_idempotent (localStore : Store)
    (serverFetch : Option (List Task)) (cs today : String) :
    (loadTasks (loadTasks localStore serverFetch cs today).store
        serverFetch cs today).store
      = (loadTasks localStore serverFetch cs today).store ∧
    (loadTasks (loadTasks localStore serverFetch cs today).store
        serverFetch cs today).displayed
      = (loadTasks localStore serverFetch cs today).displayed := by
  have hstore : (loadTasks (loadTasks localStore serverFetch cs today).store
      serverFetch cs today).store
      = (loadTasks localStore serverFetch cs today).store := by
    cases serverFetch with
    | none => rfl
    | some sts =>
        show mergeImport (mergeImport localStore sts cs) sts cs
          = mergeImport localStore sts cs
        unfold mergeImport
        apply importLoop_no_op
        intro st hst
        exact mem_ids_of_mem_importLoop (topIds localStore) cs localStore sts
          st hst (fun i hi => hi)
  refine ⟨hstore, ?_⟩
  rw [loadTasks_displayed_eq, loadTasks_displayed_eq, hstore]

/-- C5: merge-on-load never uploads — for every world state, `loadTasks`
leaves the remote task store unchanged, record by record. -/
theorem loadTasks_no_upload (w : World) (cs today : String) (offline : Bool) :
    (loadTasksWorld w cs today offline).1.serverStore = w.serverStore ∧
    (∀ i, topLookup (loadTasksWorld w cs today offline).1.serverStore i
      = topLookup w.serverStore i) :=
  ⟨rfl, fun _ => rfl⟩

/-! ## Task hierarchy resolver (`TimeTrackerApp.findTaskContext`) -/

/-- The `{task, parent, root}` record returned by `findTaskContext`. -/
structure TaskContext where
  task : Task
  parent : Option Task
  root : Task

/-- Embedding of `TimeTrackerApp.findSubtaskRecursive(subtasks, id, parent)`: walk the
sibling list; a node is checked before its own subtasks, and a node's whole
subtree is searched before the next sibling. -/
def findSubtaskRecursive : List Task → String → Task → Option (Task × Task)
  | [], _, _ => none
  | Task.mk i n d c u sd tl sub :: rest, id, parent =>
      if i == id then some (Task.mk i n d c u sd tl sub, parent)
      else
        match findSubtaskRecursive sub id (Task.mk i n d c u sd tl sub) with
        | some found => some found
        | none => findSubtaskRecursive rest id parent

/-- Embedding of `TimeTrackerApp.findTaskContext(taskId)`: for each root in store order,
check the root itself, then search that root's subtask tree, before moving on
to the next root. -/
def findTaskContext : Store → String → Option TaskContext
  | [], _ => none
  | root :: rest, taskId =>
      if root.id == taskId then some ⟨root, none, root⟩
      else
        match findSubtaskRecursive root.subtasks taskId root with
        | some (task, parent) => some ⟨task, some parent, root⟩
        | none => findTaskContext rest taskId

/-- All ids occurring in a forest of tasks, in preorder. -/
def forestIds : List Task → List String
  | [] => []
  | Task.mk i _ _ _ _ _ _ sub :: rest => i :: (forestIds sub ++ forestIds rest)

/-- The `(task, parent)` pairs of a sibling list in the search order of
`findSubtaskRecursive`. -/
def preorderPairs : List Task → Task → List (Task × Task)
  | [], _ => []
  | Task.mk i n d c u sd tl sub :: rest, parent =>
      (Task.mk i n d c u sd tl sub, parent) ::
        (preorderPairs sub (Task.mk i n d c u sd tl sub) ++
          preorderPairs rest parent)

/-- All contexts of a store in the search order of `findTaskContext`: roots
in array order, each root before its own subtask tree. -/
def rootCtxs : Store → List TaskContext
  | [] => []
  | root :: rest =>
      (⟨root, none, root⟩ ::
        (preorderPairs root.subtasks root).map
          (fun p => ⟨p.1, some p.2, root⟩)) ++ rootCtxs rest

theorem findSubtaskRecursive_cons (t : Task) (rest : List Task) (id : String)
    (parent : Task) :
    findSubtaskRecursive (t :: rest) id parent =
      if t.id == id then some (t, parent)
      else
        match findSubtaskRecursive t.subtasks id t with
        | some found => some found
        | none => findSubtaskRecursive rest id parent := by
  cases t ; rfl

theorem preorderPairs_cons (t : Task) (rest : List Task) (parent : Task) :
    preorderPairs (t :: rest) parent =
      (t, parent) :: (preorderPairs t.subtasks t ++ preorderPairs rest parent) := by
  cases t ; rfl

theorem forestIds_cons (t : Task) (rest : List Task) :
    forestIds (t :: rest) = t.id :: (forestIds t.subtasks ++ forestIds rest) := by
  cases t ; simp [forestIds]

theorem rootCtxs_cons (root : Task) (rest : Store) :
    rootCtxs (root :: rest)
      = (⟨root, none, root⟩ ::
          (preorderPairs root.subtasks root).map
            (fun p => ⟨p.1, some p.2, root⟩)) ++ rootCtxs rest := rfl

theorem rootCtxs_append (a b : Store) :
    rootCtxs (a ++ b) = rootCtxs a ++ rootCtxs b := by
  induction a with
  | nil => rfl
  | cons root rest ih =>
      rw [List.cons_append, rootCtxs_cons, rootCtxs_cons, ih, List.append_assoc]

/-- Lemma: `findSubtaskRecursive` returns the first entry of the preorder pair list
whose task id matches. -/
theorem findSubtaskRecursive_eq_find? (l : List Task) (id : String)
    (parent : Task) :
    findSubtaskRecursive l id parent
      = (preorderPairs l parent).find? (fun p => p.1.id == id) := by
  induction l, id, parent using findSubtaskRecursive.induct with
  | case1 id parent => rfl
  | case2 i n d c u sd tl sub rest id parent hbeq =>
      rw [show findSubtaskRecursive (Task.mk i n d c u sd tl sub :: rest)
          id parent = some (Task.mk i n d c u sd tl sub, parent) from by
        simp [findSubtaskRecursive, hbeq]]
      rw [preorderPairs_cons]
      exact (List.find?_cons_of_pos _ (by simpa using hbeq)).symm
  | case3 i n d c u sd tl sub rest id parent hbeq found hfound ih =>
      rw [show findSubtaskRecursive (Task.mk i n d c u sd tl sub :: rest)
          id parent = some found from by
        simp [findSubtaskRecursive, hbeq, hfound]]
      rw [preorderPairs_cons,
        List.find?_cons_of_neg _ (by simpa using hbeq), List.find?_append]
      rw [ih] at hfound
      simp [hfound]
  | case4 i n d c u sd tl sub rest id parent hbeq hnone ih1 ih2 =>
      rw [show findSubtaskRecursive (Task.mk i n d c u sd tl sub :: rest)
          id parent = findSubtaskRecursive rest id parent from by
        simp [findSubtaskRecursive, hbeq, hnone]]
      rw [preorderPairs_cons,
        List.find?_cons_of_neg _ (by simpa using hbeq), List.find?_append]
      rw [ih1] at hnone
      simp [hnone, ih2]

/-- Lemma: `findTaskContext` returns the first context, in the interleaved per-root
preorder, whose task id matches. -/
theorem findTaskContext_eq_find? (store : Store) (taskId : String) :
    findTaskContext store taskId
      = (rootCtxs store).find? (fun c => c.task.id == taskId) := by
  induction store with
  | nil => rfl
  | cons root rest ih =>
      rw [rootCtxs_cons, List.cons_append]
      by_cases hbeq : (root.id == taskId) = true
      · rw [show findTaskContext (root :: rest) taskId
            = some ⟨root, none, root⟩ from by
          simp [findTaskContext, hbeq]]
        exact (List.find?_cons_of_pos _ (by simpa using hbeq)).symm
      · rw [List.find?_cons_of_neg _ (by simpa using hbeq), List.find?_append,
          List.find?_map]
        have hq : ((fun c : TaskContext => c.task.id == taskId) ∘
            (fun p : Task × Task => (⟨p.1, some p.2, root⟩ : TaskContext)))
            = (fun p : Task × Task => p.1.id == taskId) := rfl
        rw [hq]
        rcases hfind : (preorderPairs root.subtasks root).find?
            (fun p : Task × Task => p.1.id == taskId) with _ | p
        · rw [show findTaskContext (root :: rest) taskId
              = findTaskContext rest taskId from by
            simp [findTaskContext, hbeq,
              (findSubtaskRecursive_eq_find? root.subtasks taskId root).trans
                hfind]]
          simp [ih]
        · rw [show findTaskContext (root :: rest) taskId
              = some ⟨p.1, some p.2, root⟩ from by
            simp [findTaskContext, hbeq,
              (findSubtaskRecursive_eq_find? root.subtasks taskId root).trans
                hfind]]
          simp

theorem preorderPairs_ids (l : List Task) (parent : Task) :
    (preorderPairs l parent).map (fun p => p.1.id) = forestIds l := by
  induction l, parent using preorderPairs.induct with
  | case1 parent => simp [preorderPairs, forestIds]
  | case2 i n d c u sd tl sub rest parent ih1 ih2 =>
      rw [preorderPairs_cons, forestIds_cons]
      simp only [List.map_cons, List.map_append, Task.subtasks_mk, Task.id_mk]
      rw [ih1, ih2]

theorem rootCtxs_ids (store : Store) :
    (rootCtxs store).map (fun c => c.task.id) = forestIds store := by
  induction store with
  | nil => simp [rootCtxs, forestIds]
  | cons root rest ih =>
      rw [rootCtxs_cons, forestIds_cons]
      simp only [List.cons_append, List.map_cons, List.map_append, List.map_map]
      rw [ih]
      have : ((fun c : TaskContext => c.task.id) ∘
          (fun p : Task × Task => (⟨p.1, some p.2, root⟩ : TaskContext)))
          = (fun p : Task × Task => p.1.id) := rfl
      rw [this, preorderPairs_ids]

/-- The resolver returns `none` exactly when the id occurs nowhere in the
store's trees. -/
theorem findTaskContext_eq_none_iff (store : Store) (taskId : String) :
    findTaskContext store taskId = none ↔ taskId ∉ forestIds store := by
  rw [findTaskContext_eq_find?, List.find?_eq_none]
  constructor
  · intro h hmem
    rw [← rootCtxs_ids] at hmem
    rcases List.mem_map.mp hmem with ⟨c, hc, hcid⟩
    exact h c hc (by simp [hcid])
  · intro h x hx hbeq
    apply h
    rw [← rootCtxs_ids]
    exact List.mem_map.mpr ⟨x, hx, beq_iff_eq.mp hbeq⟩

theorem findTaskContext_append (a b : Store) (taskId : String) :
    findTaskContext (a ++ b) taskId
      = (findTaskContext a taskId).or (findTaskContext b taskId) := by
  rw [findTaskContext_eq_find?, findTaskContext_eq_find?,
    findTaskContext_eq_find?, rootCtxs_append, List.find?_append]

theorem rootCtxs_mem_spec (store : Store) (c : TaskContext)
    (hc : c ∈ rootCtxs store) :
    c.root ∈ store ∧
    (c.parent = none → c.task = c.root) ∧
    (∀ p, c.parent = some p →
      (c.task, p) ∈ preorderPairs c.root.subtasks c.root) := by
  induction store with
  | nil => cases hc
  | cons root rest ih =>
      rw [rootCtxs_cons] at hc
      rcases List.mem_append.mp hc with h1 | h2
      · rcases List.mem_cons.mp h1 with rfl | h1'
        · refine ⟨List.mem_cons_self root rest, fun _ => rfl, ?_⟩
          intro p hp
          exact absurd hp (by simp)
        · rcases List.mem_map.mp h1' with ⟨p, hp, rfl⟩
          refine ⟨List.mem_cons_self root rest, ?_, ?_⟩
          · intro hcon
            exact absurd hcon (by simp)
          · intro q hq
            have hq' : p.2 = q := Option.some.inj hq
            subst hq'
            simpa using hp
      · obtain ⟨h1, h2', h3⟩ := ih h2
        exact ⟨List.mem_cons_of_mem _ h1, h2', h3⟩

theorem mem_forestIds_of_mem (l : List Task) (x : Task) (hx : x ∈ l) :
    x.id ∈ forestIds l := by
  induction l with
  | nil => cases hx
  | cons a rest ih =>
      rw [forestIds_cons]
      rcases List.mem_cons.mp hx with rfl | hrest
      · exact List.mem_cons_self _ _
      · exact List.mem_cons_of_mem _
          (List.mem_append_right _ (ih hrest))

theorem replaceById_append (a b : Store) (task : Task) :
    replaceById (a ++ b) task = replaceById a task ++ replaceById b task := by
  simp [replaceById]

theorem replaceById_eq_self_of_no_match (l : Store) (task : Task)
    (h : ∀ x ∈ l, x.id ≠ task.id) :
    replaceById l task = l := by
  unfold replaceById
  have : ∀ x ∈ l, (if x.id == task.id then task else x) = x := by
    intro x hx
    rw [if_neg (by simpa using h x hx)]
  rw [List.map_congr_left this]
  simp

theorem preorderPairs_append (a b : List Task) (parent : Task) :
    preorderPairs (a ++ b) parent
      = preorderPairs a parent ++ preorderPairs b parent := by
  induction a with
  | nil => simp [preorderPairs]
  | cons t rest ih =>
      rw [List.cons_append, preorderPairs_cons, preorderPairs_cons, ih,
        List.cons_append, List.append_assoc]

/-- Update the first task matching `targetId` in the search order of
`findSubtaskRecursive` (node before its own subtasks, then siblings),
mirroring the in-place mutation of the object the resolver returned; the
boolean reports whether a match was found. -/
def updateFirstInList (f : Task → Task) : List Task → String → List Task × Bool
  | [], _ => ([], false)
  | Task.mk i n d c u sd tl sub :: rest, targetId =>
      if i == targetId then (f (Task.mk i n d c u sd tl sub) :: rest, true)
      else
        match updateFirstInList f sub targetId with
        | (sub', true) => (Task.mk i n d c u sd tl sub' :: rest, true)
        | (_, false) =>
            let r := updateFirstInList f rest targetId
            (Task.mk i n d c u sd tl sub :: r.1, r.2)

/-- Update the first match within one root's tree, in the search order of
`findTaskContext` restricted to that root (the root itself first). -/
def updateFirstInTree (f : Task → Task) (root : Task) (targetId : String) :
    Task :=
  if root.id == targetId then f root
  else root.withSubtasks (updateFirstInList f root.subtasks targetId).1

/-- The subtask literal built by `TimeTrackerApp.addSubtask`:
`{id, name, duration: 0, createdAt: Date.now(), timerLogs: [], subtasks: []}`.
The source literal carries no `updatedAt` property; the model sets it to the
same `Date.now()` value as `createdAt`. -/
def newSubtask (freshId nm : String) (now : Int) : Task :=
  Task.mk freshId nm 0 now now none (some []) []

/-- Embedding of `TimeTrackerApp.addSubtask(parentId, name)`: find the context, append the
new subtask to the found task's `subtasks`, refresh the root's `updatedAt`,
and persist the root via the store's overwrite operation. -/
def addSubtask (store : Store) (parentId nm freshId : String) (now : Int) :
    Store :=
  match findTaskContext store parentId with
  | none => store
  | some ctx =>
      let root' := (updateFirstInTree
          (fun t => t.withSubtasks (t.subtasks ++ [newSubtask freshId nm now]))
          ctx.root parentId).withUpdatedAt now
      (overwriteTask store root').1

/-- Subtask of the C10 counterexample store, carrying the contested id. -/
def cexSub : Task := Task.mk "x" "sub" 1 0 0 none none []

/-- First root of the C10 counterexample store; owns `cexSub`. -/
def cexR1 : Task := Task.mk "r1" "R1" 0 0 0 none none [cexSub]

/-- Second root of the C10 counterexample store; its id collides with the id
of `cexSub`, which sits in the earlier root's subtree. -/
def cexR2 : Task := Task.mk "x" "R2" 2 0 0 none none []

/-- The C10 counterexample store. -/
def cexStore : Store := [cexR1, cexR2]

/-- C10 counterexample: a root-level task with id `"x"` exists (`cexR2`), yet
`findTaskContext "x"` returns the subtask of the earlier root `cexR1`, with a
non-null parent — the search does not let the first root-level match win
before recursing; it searches each root's subtree before moving to the next
root. -/
theorem findTaskContext_counterexample :
    "x" ∈ topIds cexStore ∧
    (findTaskContext cexStore "x").map
        (fun c => (c.task.name, c.parent.map Task.name, c.root.name))
      = some ("sub", some "R1", "R1") ∧
    (findTaskContext cexStore "x").map (fun c => c.parent.isSome)
      = some true := by
  refine ⟨?_, rfl, rfl⟩
  simp [topIds, cexStore, cexR1, cexR2]

/-- C10 (amended): `findTaskContext` returns the first match in the
interleaved per-root preorder (each root checked before its own subtask tree,
roots in store order); it returns `null` exactly when the id occurs nowhere;
a returned context carries the matched task, the owning top-level root (with
`parent = none` and `task = root` for a root-level match, and the true parent
pair inside that root's tree otherwise); and inserting a fresh subtask under
a root `R` makes `findTaskContext` of the fresh id return
`{task: subtask, parent: R, root: R}` (with `R`'s refreshed fields). -/
theorem findTaskContext_spec (store : Store) (taskId : String) :
    (findTaskContext store taskId
      = (rootCtxs store).find? (fun c => c.task.id == taskId)) ∧
    (findTaskContext store taskId = none ↔ taskId ∉ forestIds store) ∧
    (∀ c, findTaskContext store taskId = some c →
      c.task.id = taskId ∧ c.root ∈ store ∧
      (c.parent = none → c.task = c.root) ∧
      (∀ p, c.parent = some p →
        (c.task, p) ∈ preorderPairs c.root.subtasks c.root)) ∧
    (∀ (pre post : Store) (R : Task) (nm freshId : String) (now : Int),
      store = pre ++ R :: post →
      R.id ∉ forestIds pre →
      freshId ∉ forestIds pre →
      freshId ∉ forestIds [R] →
      findTaskContext (addSubtask store R.id nm freshId now) freshId
        = some ⟨newSubtask freshId nm now,
            some ((R.withSubtasks
              (R.subtasks ++ [newSubtask freshId nm now])).withUpdatedAt now),
            (R.withSubtasks
              (R.subtasks ++ [newSubtask freshId nm now])).withUpdatedAt now⟩) := by
  refine ⟨findTaskContext_eq_find? store taskId,
    findTaskContext_eq_none_iff store taskId, ?_, ?_⟩
  · intro c hc
    rw [findTaskContext_eq_find? store taskId] at hc
    have hq := List.find?_some hc
    have hmem := List.mem_of_find?_eq_some hc
    obtain ⟨h1, h2, h3⟩ := rootCtxs_mem_spec store c hmem
    exact ⟨beq_iff_eq.mp hq, h1, h2, h3⟩
  · intro pre post R nm freshId now hstore hRpre hfr1 hfr2
    subst hstore
    have hRid : R.id ∈ forestIds [R] := by
      rw [forestIds_cons]
      exact List.mem_cons_self _ _
    have hfreshR : freshId ≠ R.id := fun heq => hfr2 (heq ▸ hRid)
    have hfindR : findTaskContext (pre ++ R :: post) R.id
        = some ⟨R, none, R⟩ := by
      rw [findTaskContext_append,
        (findTaskContext_eq_none_iff pre R.id).mpr hRpre]
      simp [findTaskContext]
    have hupd : addSubtask (pre ++ R :: post) R.id nm freshId now
        = (overwriteTask (pre ++ R :: post)
            ((R.withSubtasks
              (R.subtasks ++ [newSubtask freshId nm now])).withUpdatedAt
              now)).1 := by
      unfold addSubtask
      rw [hfindR]
      simp [updateFirstInTree]
    have hany : (pre ++ R :: post).any
        (fun t => t.id == ((R.withSubtasks
          (R.subtasks ++ [newSubtask freshId nm now])).withUpdatedAt
          now).id) = true := by
      apply List.any_eq_true.mpr
      exact ⟨R, by simp, by simp⟩
    have hpre_eq : replaceById pre ((R.withSubtasks
        (R.subtasks ++ [newSubtask freshId nm now])).withUpdatedAt now)
        = pre := by
      apply replaceById_eq_self_of_no_match
      intro x hx
      simp only [Task.id_withUpdatedAt, Task.id_withSubtasks]
      intro heq
      exact hRpre (heq ▸ mem_forestIds_of_mem pre x hx)
    have hstore' : (overwriteTask (pre ++ R :: post)
        ((R.withSubtasks
          (R.subtasks ++ [newSubtask freshId nm now])).withUpdatedAt now)).1
        = pre ++ ((R.withSubtasks
            (R.subtasks ++ [newSubtask freshId nm now])).withUpdatedAt now)
          :: replaceById post ((R.withSubtasks
            (R.subtasks ++ [newSubtask freshId nm now])).withUpdatedAt
            now) := by
      unfold overwriteTask
      dsimp only
      rw [if_pos hany, replaceById_append, hpre_eq, replaceById_cons]
      rw [if_pos (by simp)]
    have hRne : ¬(((R.withSubtasks
        (R.subtasks ++ [newSubtask freshId nm now])).withUpdatedAt now).id
        == freshId) = true := by
      simp only [Task.id_withUpdatedAt, Task.id_withSubtasks, beq_iff_eq]
      exact fun heq => hfreshR heq.symm
    have hfs : findSubtaskRecursive
        (R.subtasks ++ [newSubtask freshId nm now]) freshId
        ((R.withSubtasks
          (R.subtasks ++ [newSubtask freshId nm now])).withUpdatedAt now)
        = some (newSubtask freshId nm now,
            (R.withSubtasks
              (R.subtasks ++ [newSubtask freshId nm now])).withUpdatedAt
              now) := by
      rw [findSubtaskRecursive_eq_find?, preorderPairs_append,
        List.find?_append]
      have h1 : (preorderPairs R.subtasks
          ((R.withSubtasks
            (R.subtasks ++ [newSubtask freshId nm now])).withUpdatedAt
            now)).find? (fun p => p.1.id == freshId) = none := by
        rw [List.find?_eq_none]
        intro p hp hbeq
        apply hfr2
        rw [forestIds_cons]
        refine List.mem_cons_of_mem _ (List.mem_append_left _ ?_)
        rw [← beq_iff_eq.mp hbeq, ← preorderPairs_ids R.subtasks
          ((R.withSubtasks
            (R.subtasks ++ [newSubtask freshId nm now])).withUpdatedAt now)]
        exact List.mem_map_of_mem _ hp
      rw [h1]
      have h2 : preorderPairs [newSubtask freshId nm now]
          ((R.withSubtasks
            (R.subtasks ++ [newSubtask freshId nm now])).withUpdatedAt now)
          = [(newSubtask freshId nm now,
              (R.withSubtasks
                (R.subtasks ++ [newSubtask freshId nm now])).withUpdatedAt
                now)] := by
        rw [preorderPairs_cons]
        simp [newSubtask, preorderPairs]
      rw [h2]
      simp [newSubtask]
    rw [hupd, hstore', findTaskContext_append,
      (findTaskContext_eq_none_iff pre freshId).mpr hfr1]
    rw [show findTaskContext (((R.withSubtasks
        (R.subtasks ++ [newSubtask freshId nm now])).withUpdatedAt now)
        :: replaceById post ((R.withSubtasks
          (R.subtasks ++ [newSubtask freshId nm now])).withUpdatedAt now))
        freshId
        = some ⟨newSubtask freshId nm now,
            some ((R.withSubtasks
              (R.subtasks ++ [newSubtask freshId nm now])).withUpdatedAt
              now),
            (R.withSubtasks
              (R.subtasks ++ [newSubtask freshId nm now])).withUpdatedAt
              now⟩ from by
      simp only [findTaskContext, Task.subtasks_withUpdatedAt,
        Task.subtasks_withSubtasks]
      rw [if_neg hRne, hfs]]
    rfl

/-- The root used in the closed instance of the amended C10 theorem. -/
def wRoot : Task := Task.mk "r" "Root" 0 0 0 none none []

/-- Closed instance of the amended C10 theorem: the round-trip clause applied
to a one-root store, discharging the decomposition and freshness
hypotheses. -/
theorem findTaskContext_spec_witness :
    ("r" ∉ forestIds ([] : Store)) ∧ ("s1" ∉ forestIds ([] : Store)) ∧
    ("s1" ∉ forestIds [wRoot]) ∧
    findTaskContext (addSubtask [wRoot] wRoot.id "s" "s1" 5) "s1"
      = some ⟨newSubtask "s1" "s" 5,
          some ((wRoot.withSubtasks
            (wRoot.subtasks ++ [newSubtask "s1" "s" 5])).withUpdatedAt 5),
          (wRoot.withSubtasks
            (wRoot.subtasks ++ [newSubtask "s1" "s" 5])).withUpdatedAt 5⟩ :=
  ⟨by simp [forestIds], by simp [forestIds],
    by rw [forestIds_cons] ; simp [wRoot, forestIds],
    (findTaskContext_spec [wRoot] "s1").2.2.2 [] [] wRoot "s" "s1" 5 rfl
      (by simp [forestIds]) (by simp [forestIds])
      (by rw [forestIds_cons] ; simp [wRoot, forestIds])⟩

/-! ## Push and pull (`TimeTrackerApp.syncTask`) -/

/-- The push-response merge of `syncTask` with direction up:
`{...task, ...serverResponse}` followed by restoring `subtasks` and the
parent-only `duration` whenever the local task owns subtasks.  The server
response is modelled as a full task record, so the plain spread equals the
response. -/
def syncTaskUpMerge (task serverResponse : Task) : Task :=
  match task.subtasks with
  | [] => serverResponse
  | _ :: _ =>
      (serverResponse.withSubtasks task.subtasks).withDuration task.duration

/-- Embedding of `syncTask` with direction up, acting on the local store: read the task under the
key, post it, merge the server's response and persist the merged record via
the overwrite operation.  `serverResponse` models the record the gateway
returns from `postTask` (the server may normalize fields, e.g. recompute the
aggregate duration). -/
def syncTaskUp (store : Store) (id : String) (serverResponse : Task) : Store :=
  match topLookup store id with
  | none => store
  | some task => (overwriteTask store (syncTaskUpMerge task serverResponse)).1

/-- C6: pushing a task that owns subtasks keeps the local parent-only
`duration` and the local `subtasks` list unchanged in the merged record,
adopting the server's other metadata (`updatedAt`, `name`), and persists the
merged record in the local store. -/
theorem push_keeps_parent_duration (store : Store) (id : String)
    (task response : Task) (hget : topLookup store id = some task)
    (hsub : task.subtasks ≠ []) :
    (syncTaskUpMerge task response).duration = task.duration ∧
    (syncTaskUpMerge task response).subtasks = task.subtasks ∧
    (syncTaskUpMerge task response).updatedAt = response.updatedAt ∧
    (syncTaskUpMerge task response).name = response.name ∧
    topLookup (syncTaskUp store id response)
        (syncTaskUpMerge task response).id
      = some (syncTaskUpMerge task response) := by
  rcases hs : task.subtasks with _ | ⟨a, rest⟩
  · exact absurd hs hsub
  · have hmerge : syncTaskUpMerge task response
        = (response.withSubtasks task.subtasks).withDuration task.duration := by
      unfold syncTaskUpMerge
      rw [hs]
    rw [hmerge, hs]
    refine ⟨by simp, by simp, by simp, by simp, ?_⟩
    show topLookup (syncTaskUp store id response) _ = _
    unfold syncTaskUp
    rw [hget]
    dsimp only
    rw [hmerge, hs]
    exact topLookup_overwriteTask_self store _

/-- The parent task of the C6 scenario: parent-only duration 50 with two
subtasks of durations 100 and 200. -/
def pushParent : Task :=
  Task.mk "p" "P" 50 0 0 none none
    [Task.mk "p1" "S1" 100 0 0 none none [],
     Task.mk "p2" "S2" 200 0 0 none none []]

/-- The server response of the C6 scenario: the aggregate duration 350 and a
fresh `updatedAt`. -/
def pushResponse : Task := Task.mk "p" "P" 350 0 9 none none []

/-- Closed instance of the C6 theorem at its scenario:
after the merge the local parent duration is still 50, not the server's 350,
and the two subtasks are retained. -/
theorem push_keeps_parent_duration_witness :
    topLookup [pushParent] "p" = some pushParent ∧
    pushParent.subtasks ≠ [] ∧
    (syncTaskUpMerge pushParent pushResponse).duration = 50 ∧
    (syncTaskUpMerge pushParent pushResponse).subtasks
      = pushParent.subtasks ∧
    (syncTaskUpMerge pushParent pushResponse).updatedAt = 9 := by
  have h := push_keeps_parent_duration [pushParent] "p" pushParent
    pushResponse (by rfl) (by simp [pushParent])
  exact ⟨by rfl, by simp [pushParent], h.1, h.2.1, h.2.2.1⟩

/-- Embedding of `syncTask` with direction down: fetch the server copy (absent → toast, no local
change); when the local context exists and has subtasks, proceed only when
the user confirms the data-loss warning; then force `subtasks = []` on the
incoming record and persist it locally via the overwrite operation. -/
def syncTaskDown (store : Store) (id : String) (serverTask : Option Task)
    (confirmPull : Bool) : Store :=
  match serverTask with
  | none => store
  | some st =>
      let needsConfirm :=
        match findTaskContext store id with
        | some ctx => !ctx.task.subtasks.isEmpty
        | none => false
      if needsConfirm && !confirmPull then store
      else (overwriteTask store (st.withSubtasks [])).1

/-- C7: a pull of a server-known task proceeds only after user confirmation
whenever the local copy has non-empty subtasks (without confirmation the
store is unchanged), and a confirmed pull persists the server record with
`subtasks` forced to the empty list. -/
theorem pull_confirm_and_clear_subtasks (store : Store) (id : String)
    (st : Task) (confirm : Bool) (ctx : TaskContext)
    (hctx : findTaskContext store id = some ctx)
    (hsub : ctx.task.subtasks ≠ []) :
    syncTaskDown store id (some st) false = store ∧
    syncTaskDown store id (some st) true
      = (overwriteTask store (st.withSubtasks [])).1 ∧
    topLookup (syncTaskDown store id (some st) true) st.id
      = some (st.withSubtasks []) ∧
    (st.withSubtasks []).subtasks = [] ∧
    syncTaskDown store id none confirm = store := by
  have hne : ctx.task.subtasks.isEmpty = false := by
    rcases h : ctx.task.subtasks with _ | _
    · exact absurd h hsub
    · rfl
  have hconfirm : (match findTaskContext store id with
      | some ctx => !ctx.task.subtasks.isEmpty
      | none => false) = true := by
    rw [hctx]
    dsimp only
    rw [hne]
    rfl
  refine ⟨?_, ?_, ?_, by simp, rfl⟩
  · show (if _ && _ then _ else _) = _
    rw [hconfirm]
    rfl
  · show (if _ && _ then _ else _) = _
    rw [hconfirm]
    rfl
  · show topLookup (if _ && _ then _ else _) st.id = _
    rw [hconfirm]
    show topLookup (overwriteTask store (st.withSubtasks [])).1 st.id = _
    have := topLookup_overwriteTask_self store (st.withSubtasks [])
    rwa [Task.id_withSubtasks] at this

/-- The local task of the C7 scenario: it owns one subtask that a pull would
discard. -/
def pullLocal : Task :=
  Task.mk "q" "Q" 10 0 0 none none [Task.mk "q1" "QS" 5 0 0 none none []]

/-- The server copy of the C7 scenario. -/
def pullServer : Task :=
  Task.mk "q" "Q" 77 0 0 none (some []) [Task.mk "zz" "ZZ" 1 0 0 none none []]

/-- Closed instance of the C7 theorem: without
confirmation nothing changes; a confirmed pull stores the server record with
`subtasks = []` even though the server value carried a subtask list. -/
theorem pull_confirm_and_clear_subtasks_witness :
    findTaskContext [pullLocal] "q"
        = some ⟨pullLocal, none, pullLocal⟩ ∧
    pullLocal.subtasks ≠ [] ∧
    syncTaskDown [pullLocal] "q" (some pullServer) false = [pullLocal] ∧
    topLookup (syncTaskDown [pullLocal] "q" (some pullServer) true) "q"
      = some (pullServer.withSubtasks []) := by
  have h := pull_confirm_and_clear_subtasks [pullLocal] "q" pullServer true
    ⟨pullLocal, none, pullLocal⟩ (by rfl) (by simp [pullLocal])
  exact ⟨by rfl, by simp [pullLocal], h.1, h.2.2.1⟩

/-! ## Rename with split semantics (`TimeTrackerApp.applyRename`) -/

/-- Properties of a successfully resolved context, shared by the rename and
delete paths. -/
theorem findTaskContext_some_props (store : Store) (tid : String)
    (c : TaskContext) (h : findTaskContext store tid = some c) :
    c.task.id = tid ∧ c.root ∈ store ∧
    (c.parent = none → c.task = c.root) ∧
    (∀ p, c.parent = some p →
      (c.task, p) ∈ preorderPairs c.root.subtasks c.root) := by
  rw [findTaskContext_eq_find?] at h
  obtain ⟨h1, h2, h3⟩ := rootCtxs_mem_spec store c (List.mem_of_find?_eq_some h)
  exact ⟨beq_iff_eq.mp
    (List.find?_some (p := fun c : TaskContext => c.task.id == tid) h),
    h1, h2, h3⟩

/-- A resolved id occurs in the owning root's tree. -/
theorem mem_forestIds_root_of_ctx (store : Store) (tid : String)
    (c : TaskContext) (h : findTaskContext store tid = some c) :
    tid ∈ forestIds [c.root] := by
  obtain ⟨hid, _, hnone, hsome⟩ := findTaskContext_some_props store tid c h
  rw [forestIds_cons]
  rcases hp : c.parent with _ | p
  · rw [← hid, hnone hp]
    exact List.mem_cons_self _ _
  · refine List.mem_cons_of_mem _ (List.mem_append_left _ ?_)
    rw [← hid, ← preorderPairs_ids c.root.subtasks c.root]
    exact List.mem_map_of_mem _ (hsome p hp)

/-- The preorder `(id, name)` pairs of a forest. -/
def forestIdName : List Task → List (String × String)
  | [] => []
  | Task.mk i n _ _ _ _ _ sub :: rest =>
      (i, n) :: (forestIdName sub ++ forestIdName rest)

theorem forestIdName_cons (t : Task) (rest : List Task) :
    forestIdName (t :: rest)
      = (t.id, t.name) :: (forestIdName t.subtasks ++ forestIdName rest) := by
  cases t ; simp [forestIdName]

theorem forestIdName_keys (l : List Task) :
    (forestIdName l).map Prod.fst = forestIds l := by
  induction l using forestIdName.induct with
  | case1 => simp [forestIdName, forestIds]
  | case2 i n d c u sd tl sub rest ih1 ih2 =>
      rw [forestIdName_cons, forestIds_cons]
      simp only [List.map_cons, List.map_append, Task.id_mk, Task.name_mk,
        Task.subtasks_mk]
      rw [ih1, ih2]

theorem lookup_append_or (a : String) (xs ys : List (String × String)) :
    List.lookup a (xs ++ ys) = (List.lookup a xs).or (List.lookup a ys) := by
  induction xs with
  | nil => simp [List.lookup]
  | cons p rest ih =>
      rcases p with ⟨k, v⟩
      by_cases h : (a == k) = true
      · simp [List.lookup, h]
      · simp [List.lookup, h, ih]

theorem lookup_eq_none_of_not_mem_keys (a : String)
    (xs : List (String × String)) (h : a ∉ xs.map Prod.fst) :
    List.lookup a xs = none := by
  induction xs with
  | nil => rfl
  | cons p rest ih =>
      rcases p with ⟨k, v⟩
      have hk : ¬ (a == k) = true := by
        simp only [beq_iff_eq]
        intro hak
        exact h (by simp [hak])
      simp only [List.lookup, hk]
      exact ih (fun ha => h (List.mem_cons_of_mem _ ha))

/-- When the target id is absent the update is the identity, and conversely
the found flag is `false` exactly on absent ids. -/
theorem updateFirstInList_not_found (f : Task → Task) (l : List Task)
    (tid : String) :
    ((updateFirstInList f l tid).2 = false →
      (updateFirstInList f l tid).1 = l ∧ tid ∉ forestIds l) ∧
    (tid ∉ forestIds l → (updateFirstInList f l tid).2 = false) := by
  induction l, tid using updateFirstInList.induct f with
  | case1 tid =>
      exact ⟨fun _ => ⟨by simp [updateFirstInList], by simp [forestIds]⟩,
        fun _ => by simp [updateFirstInList]⟩
  | case2 i n d c u sd tl sub rest tid hbeq =>
      constructor
      · intro hflag
        rw [show (updateFirstInList f (Task.mk i n d c u sd tl sub :: rest)
            tid).2 = true from by simp [updateFirstInList, hbeq]] at hflag
        cases hflag
      · intro habs
        have hmem : tid ∈ forestIds (Task.mk i n d c u sd tl sub :: rest) := by
          rw [forestIds_cons]
          have hi : i = tid := beq_iff_eq.mp hbeq
          simp only [Task.id_mk]
          rw [hi]
          exact List.mem_cons_self _ _
        exact absurd hmem habs
  | case3 i n d c u sd tl sub rest tid hbeq sub' hsub ih =>
      constructor
      · intro hflag
        rw [show (updateFirstInList f (Task.mk i n d c u sd tl sub :: rest)
            tid).2 = true from by simp [updateFirstInList, hbeq, hsub]] at hflag
        cases hflag
      · intro habs
        rw [forestIds_cons] at habs
        have hsubabs : tid ∉ forestIds sub := fun hmem =>
          habs (List.mem_cons_of_mem _ (List.mem_append_left _ (by simpa using hmem)))
        have := ih.2 hsubabs
        rw [hsub] at this
        cases this
  | case4 i n d c u sd tl sub rest tid hbeq fst hsub ih1 ih2 =>
      have heq : updateFirstInList f (Task.mk i n d c u sd tl sub :: rest) tid
          = (Task.mk i n d c u sd tl sub
              :: (updateFirstInList f rest tid).1,
            (updateFirstInList f rest tid).2) := by
        simp [updateFirstInList, hbeq, hsub]
      constructor
      · intro hflag
        rw [heq] at hflag
        obtain ⟨hrest1, hrest2⟩ := ih2.1 hflag
        have hsubabs : tid ∉ forestIds sub := (ih1.1 (by rw [hsub])).2
        refine ⟨by rw [heq, hrest1], ?_⟩
        rw [forestIds_cons]
        intro hmem
        rcases List.mem_cons.mp hmem with hhead | htail
        · exact absurd (by simpa using hhead.symm) (by simpa using hbeq)
        · rcases List.mem_append.mp htail with h1 | h2
          · exact hsubabs (by simpa using h1)
          · exact hrest2 h2
      · intro habs
        rw [heq]
        rw [forestIds_cons] at habs
        exact ih2.2 (fun hmem =>
          habs (List.mem_cons_of_mem _ (List.mem_append_right _ hmem)))

/-- After a successful rename update, looking the id up in the preorder
`(id, name)` pairs yields the new name. -/
theorem updateFirstInList_rename_lookup (nm : String) (now : Int)
    (l : List Task) (tid : String)
    (hflag : (updateFirstInList
      (fun t => (t.withName nm).withUpdatedAt now) l tid).2 = true) :
    List.lookup tid (forestIdName (updateFirstInList
      (fun t => (t.withName nm).withUpdatedAt now) l tid).1) = some nm := by
  induction l, tid using
    updateFirstInList.induct (fun t => (t.withName nm).withUpdatedAt now) with
  | case1 tid => simp [updateFirstInList] at hflag
  | case2 i n d c u sd tl sub rest tid hbeq =>
      rw [show (updateFirstInList
          (fun t => (t.withName nm).withUpdatedAt now)
          (Task.mk i n d c u sd tl sub :: rest) tid).1
          = ((Task.mk i n d c u sd tl sub).withName nm).withUpdatedAt now
            :: rest from by simp [updateFirstInList, hbeq]]
      rw [forestIdName_cons]
      simp only [Task.name_withUpdatedAt, Task.name_withName,
        Task.id_withUpdatedAt, Task.id_withName, Task.id_mk]
      have : (tid == i) = true := by
        simp only [beq_iff_eq] at hbeq ⊢
        exact hbeq.symm
      simp [List.lookup, this]
  | case3 i n d c u sd tl sub rest tid hbeq sub' hsub ih =>
      rw [show (updateFirstInList
          (fun t => (t.withName nm).withUpdatedAt now)
          (Task.mk i n d c u sd tl sub :: rest) tid).1
          = Task.mk i n d c u sd tl sub' :: rest from by
            simp [updateFirstInList, hbeq, hsub]]
      rw [forestIdName_cons]
      have hne : ¬ (tid == i) = true := by
        simp only [beq_iff_eq] at hbeq ⊢
        exact fun heq => hbeq heq.symm
      simp only [Task.id_mk, Task.name_mk, Task.subtasks_mk, List.lookup, hne]
      rw [lookup_append_or]
      have ihh := ih (by rw [hsub])
      rw [hsub] at ihh
      simp only at ihh
      rw [ihh]
      rfl
  | case4 i n d c u sd tl sub rest tid hbeq fst hsub ih1 ih2 =>
      have heq : (updateFirstInList
          (fun t => (t.withName nm).withUpdatedAt now)
          (Task.mk i n d c u sd tl sub :: rest) tid)
          = (Task.mk i n d c u sd tl sub
              :: (updateFirstInList
                (fun t => (t.withName nm).withUpdatedAt now) rest tid).1,
            (updateFirstInList
              (fun t => (t.withName nm).withUpdatedAt now) rest tid).2) := by
        simp [updateFirstInList, hbeq, hsub]
      rw [heq] at hflag ⊢
      simp only at hflag ⊢
      rw [forestIdName_cons]
      have hne : ¬ (tid == i) = true := by
        simp only [beq_iff_eq] at hbeq ⊢
        exact fun heq => hbeq heq.symm
      simp only [Task.id_mk, Task.name_mk, Task.subtasks_mk, List.lookup, hne]
      rw [lookup_append_or]
      have hsubabs : tid ∉ forestIds sub :=
        ((updateFirstInList_not_found _ sub tid).1 (by rw [hsub])).2
      rw [lookup_eq_none_of_not_mem_keys tid (forestIdName sub)
        (by rwa [forestIdName_keys])]
      rw [ih2 hflag]
      rfl

/-- A field update that keeps `id` and `subtasks` keeps every id of the
forest. -/
theorem forestIds_updateFirstInList (f : Task → Task)
    (hf : ∀ t : Task, (f t).id = t.id ∧ (f t).subtasks = t.subtasks)
    (l : List Task) (tid : String) :
    forestIds (updateFirstInList f l tid).1 = forestIds l := by
  induction l, tid using updateFirstInList.induct f with
  | case1 tid => simp [updateFirstInList]
  | case2 i n d c u sd tl sub rest tid hbeq =>
      rw [show (updateFirstInList f (Task.mk i n d c u sd tl sub :: rest)
          tid).1 = f (Task.mk i n d c u sd tl sub) :: rest from by
        simp [updateFirstInList, hbeq]]
      rw [forestIds_cons, forestIds_cons, (hf _).1, (hf _).2]
  | case3 i n d c u sd tl sub rest tid hbeq sub' hsub ih =>
      rw [show (updateFirstInList f (Task.mk i n d c u sd tl sub :: rest)
          tid).1 = Task.mk i n d c u sd tl sub' :: rest from by
        simp [updateFirstInList, hbeq, hsub]]
      rw [forestIds_cons, forestIds_cons]
      have := ih
      rw [hsub] at this
      simp only at this
      simp only [Task.id_mk, Task.subtasks_mk]
      rw [this]
  | case4 i n d c u sd tl sub rest tid hbeq fst hsub ih1 ih2 =>
      rw [show (updateFirstInList f (Task.mk i n d c u sd tl sub :: rest)
          tid).1 = Task.mk i n d c u sd tl sub
            :: (updateFirstInList f rest tid).1 from by
        simp [updateFirstInList, hbeq, hsub]]
      rw [forestIds_cons, forestIds_cons]
      simp only [Task.id_mk, Task.subtasks_mk]
      rw [ih2]

theorem id_updateFirstInTree (f : Task → Task)
    (hf : ∀ t : Task, (f t).id = t.id) (root : Task) (tid : String) :
    (updateFirstInTree f root tid).id = root.id := by
  unfold updateFirstInTree
  by_cases hbeq : (root.id == tid) = true
  · rw [if_pos hbeq, hf]
  · rw [if_neg hbeq, Task.id_withSubtasks]

theorem forestIds_updateFirstInTree (f : Task → Task)
    (hf : ∀ t : Task, (f t).id = t.id ∧ (f t).subtasks = t.subtasks)
    (root : Task) (tid : String) :
    forestIds [updateFirstInTree f root tid] = forestIds [root] := by
  unfold updateFirstInTree
  by_cases hbeq : (root.id == tid) = true
  · rw [if_pos hbeq, forestIds_cons, forestIds_cons, (hf root).1, (hf root).2]
  · rw [if_neg hbeq, forestIds_cons, forestIds_cons, Task.id_withSubtasks,
      Task.subtasks_withSubtasks,
      forestIds_updateFirstInList f hf root.subtasks tid]

/-- A successful rename of `tid` inside a root's tree makes the preorder
`(id, name)` lookup of `tid` yield the new name. -/
theorem lookup_updateFirstInTree_rename (nm : String) (now : Int)
    (root : Task) (tid : String) (hmem : tid ∈ forestIds [root]) :
    List.lookup tid (forestIdName [updateFirstInTree
      (fun t => (t.withName nm).withUpdatedAt now) root tid]) = some nm := by
  unfold updateFirstInTree
  by_cases hbeq : (root.id == tid) = true
  · rw [if_pos hbeq, forestIdName_cons]
    simp only [Task.name_withUpdatedAt, Task.name_withName,
      Task.id_withUpdatedAt, Task.id_withName]
    have : (tid == root.id) = true := by
      simp only [beq_iff_eq] at hbeq ⊢
      exact hbeq.symm
    simp [List.lookup, this]
  · rw [if_neg hbeq, forestIdName_cons]
    simp only [Task.id_withSubtasks, Task.name_withSubtasks,
      Task.subtasks_withSubtasks]
    have hne : ¬ (tid == root.id) = true := by
      simp only [beq_iff_eq] at hbeq ⊢
      exact fun heq => hbeq heq.symm
    simp only [List.lookup, hne]
    rw [lookup_append_or]
    have hsubmem : tid ∈ forestIds root.subtasks := by
      rw [forestIds_cons] at hmem
      rcases List.mem_cons.mp hmem with hhead | htail
      · exact absurd (by simpa using hhead.symm) (by simpa using hbeq)
      · simpa using (List.mem_append.mp htail).resolve_right (by simp [forestIds])
    have hflag : (updateFirstInList
        (fun t => (t.withName nm).withUpdatedAt now) root.subtasks tid).2
        = true := by
      rcases hb : (updateFirstInList
          (fun t => (t.withName nm).withUpdatedAt now) root.subtasks tid).2 with _ | _
      · exact absurd hsubmem
          ((updateFirstInList_not_found _ root.subtasks tid).1 hb).2
      · rfl
    rw [updateFirstInList_rename_lookup nm now root.subtasks tid hflag]
    rfl

theorem topLookup_eq_none_of_any_false (store : Store) (i : String)
    (h : ¬ store.any (fun t => t.id == i) = true) :
    topLookup store i = none := by
  unfold topLookup
  rw [List.find?_eq_none]
  intro x hx hbeq
  exact h (List.any_eq_true.mpr ⟨x, hx, hbeq⟩)

theorem topLookup_deleteFromStore_self (store : Store) (i : String) :
    topLookup (deleteFromStore store i) i = none := by
  unfold topLookup deleteFromStore
  rw [List.find?_eq_none]
  intro x hx hbeq
  have := (List.mem_filter.mp hx).2
  rw [hbeq] at this
  cases this

/-- Embedding of `TimeTrackerApp.applyRename`: empty names are rejected; a server-known
top-level task is split (a copy with a fresh id, the new name and fresh
timestamps is added, then the old id is deleted; if the add fails nothing is
mutated); any other resolved task — local-only or a subtask — has its `name`
and `updatedAt` updated in place and the owning root re-persisted via the
overwrite operation. -/
def applyRename (store : Store) (renamingTaskId newName : String)
    (isOnServer : Bool) (freshId : String) (now : Int) : Store :=
  if newName = "" then store
  else
    match findTaskContext store renamingTaskId with
    | none => store
    | some ctx =>
        if isOnServer && ctx.parent.isNone then
          let newTask := (((ctx.task.withId freshId).withName
            newName).withCreatedAt now).withUpdatedAt now
          match saveTask store newTask with
          | none => store
          | some store1 => deleteFromStore store1 renamingTaskId
        else
          (overwriteTask store (updateFirstInTree
            (fun t => (t.withName newName).withUpdatedAt now)
            ctx.root renamingTaskId)).1

theorem applyRename_split_eval (store : Store) (id newName freshId : String)
    (now : Int) (ctx : TaskContext) (hname : ¬ newName = "")
    (hctx : findTaskContext store id = some ctx) (hroot : ctx.parent = none)
    (hfresh : ¬ store.any (fun t => t.id == freshId) = true) :
    applyRename store id newName true freshId now
      = deleteFromStore (store ++ [(((ctx.task.withId freshId).withName
          newName).withCreatedAt now).withUpdatedAt now]) id := by
  unfold applyRename
  rw [if_neg hname, hctx]
  dsimp only
  rw [hroot]
  simp only [Option.isNone_none, Bool.and_true, if_true]
  unfold saveTask
  simp only [Task.id_withUpdatedAt, Task.id_withCreatedAt, Task.id_withName,
    Task.id_withId]
  rw [if_neg hfresh]

theorem applyRename_inplace_eval (store : Store) (id newName freshId : String)
    (now : Int) (wasOnServer : Bool) (ctx : TaskContext)
    (hname : ¬ newName = "") (hctx : findTaskContext store id = some ctx)
    (hcond : wasOnServer = false ∨ ctx.parent ≠ none) :
    applyRename store id newName wasOnServer freshId now
      = (overwriteTask store (updateFirstInTree
          (fun t => (t.withName newName).withUpdatedAt now)
          ctx.root id)).1 := by
  unfold applyRename
  rw [if_neg hname, hctx]
  dsimp only
  have hfalse : (wasOnServer && ctx.parent.isNone) = false := by
    rcases hcond with rfl | hp
    · rfl
    · rcases hc : ctx.parent with _ | p
      · exact absurd hc hp
      · simp
  rw [hfalse]
  rfl

/-- C8: renaming a server-known top-level task splits it — the local store
afterwards holds a task under the fresh id carrying the new name and fresh
`createdAt`/`updatedAt`, and holds nothing under the old id — while renaming
with a non-server task or a subtask context updates the name in place,
persisting via the root, with no key change and no id change anywhere in the
root's tree. -/
theorem applyRename_spec (store : Store) (id newName freshId : String)
    (now : Int) (ctx : TaskContext) (hname : ¬ newName = "")
    (hctx : findTaskContext store id = some ctx) :
    (ctx.parent = none →
      ¬ store.any (fun t => t.id == freshId) = true →
      (topLookup (applyRename store id newName true freshId now) freshId
          = some ((((ctx.task.withId freshId).withName newName).withCreatedAt
              now).withUpdatedAt now) ∧
        topLookup (applyRename store id newName true freshId now) id
          = none ∧
        ((((ctx.task.withId freshId).withName newName).withCreatedAt
          now).withUpdatedAt now).id = freshId ∧
        ((((ctx.task.withId freshId).withName newName).withCreatedAt
          now).withUpdatedAt now).name = newName ∧
        ((((ctx.task.withId freshId).withName newName).withCreatedAt
          now).withUpdatedAt now).createdAt = now ∧
        ((((ctx.task.withId freshId).withName newName).withCreatedAt
          now).withUpdatedAt now).updatedAt = now)) ∧
    (∀ wasOnServer : Bool, wasOnServer = false ∨ ctx.parent ≠ none →
      (applyRename store id newName wasOnServer freshId now
          = (overwriteTask store (updateFirstInTree
              (fun t => (t.withName newName).withUpdatedAt now)
              ctx.root id)).1 ∧
        topIds (applyRename store id newName wasOnServer freshId now)
          = topIds store ∧
        forestIds [updateFirstInTree
            (fun t => (t.withName newName).withUpdatedAt now) ctx.root id]
          = forestIds [ctx.root] ∧
        List.lookup id (forestIdName [updateFirstInTree
            (fun t => (t.withName newName).withUpdatedAt now) ctx.root id])
          = some newName)) := by
  have hprops := findTaskContext_some_props store id ctx hctx
  constructor
  · intro hroot hfresh
    have htaskroot := hprops.2.2.1 hroot
    have hidtop : id ∈ topIds store := by
      rw [← hprops.1, htaskroot]
      exact List.mem_map_of_mem Task.id hprops.2.1
    have hne : freshId ≠ id := by
      intro heq
      apply hfresh
      apply List.any_eq_true.mpr
      rcases List.mem_map.mp hidtop with ⟨x, hx, hxid⟩
      exact ⟨x, hx, by rw [beq_iff_eq, hxid, heq]⟩
    rw [applyRename_split_eval store id newName freshId now ctx hname hctx
      hroot hfresh]
    have hsplit : deleteFromStore (store ++ [(((ctx.task.withId
        freshId).withName newName).withCreatedAt now).withUpdatedAt now]) id
        = deleteFromStore store id ++ [(((ctx.task.withId
          freshId).withName newName).withCreatedAt now).withUpdatedAt now] := by
      unfold deleteFromStore
      rw [List.filter_append]
      congr 1
      rw [List.filter_cons]
      rw [if_pos (by simp [hne])]
      rfl
    refine ⟨?_, ?_, by simp, by simp, by simp, by simp⟩
    · rw [hsplit]
      unfold topLookup
      rw [List.find?_append]
      have h1 : List.find? (fun t => t.id == freshId)
          (deleteFromStore store id) = none := by
        rw [List.find?_eq_none]
        intro x hx hbeq
        exact hfresh (List.any_eq_true.mpr
          ⟨x, List.mem_of_mem_filter hx, hbeq⟩)
      rw [h1]
      have h2 : List.find? (fun t => t.id == freshId)
          [(((ctx.task.withId freshId).withName newName).withCreatedAt
            now).withUpdatedAt now]
          = some ((((ctx.task.withId freshId).withName
            newName).withCreatedAt now).withUpdatedAt now) :=
        List.find?_cons_of_pos _ (by simp)
      rw [h2]
      rfl
    · exact topLookup_deleteFromStore_self _ id
  · intro wasOnServer hcond
    have heval := applyRename_inplace_eval store id newName freshId now
      wasOnServer ctx hname hctx hcond
    have hf : ∀ t : Task,
        (((t.withName newName).withUpdatedAt now)).id = t.id ∧
        (((t.withName newName).withUpdatedAt now)).subtasks = t.subtasks := by
      intro t
      constructor
      · simp
      · simp
    have hany : store.any (fun t => t.id == (updateFirstInTree
        (fun t => (t.withName newName).withUpdatedAt now)
        ctx.root id).id) = true := by
      apply List.any_eq_true.mpr
      refine ⟨ctx.root, hprops.2.1, ?_⟩
      rw [beq_iff_eq, id_updateFirstInTree _ (fun t => (hf t).1)]
    refine ⟨heval, ?_,
      forestIds_updateFirstInTree _ hf ctx.root id,
      lookup_updateFirstInTree_rename newName now ctx.root id
        (mem_forestIds_root_of_ctx store id ctx hctx)⟩
    rw [heval]
    exact topIds_overwriteTask_of_mem store _ hany

/-- The server-known top-level task `{id:"c"}` of the C8 scenario. -/
def renameTask : Task := Task.mk "c" "Old" 30 0 0 none none []

/-- Closed instance of the C8 theorem: renaming `{id:"c"}` to "New Name"
with fresh id `"c2"` leaves a task under `"c2"` named "New Name" with fresh
timestamps, and nothing under `"c"`. -/
theorem applyRename_spec_witness :
    (¬ ("New Name" = "")) ∧
    findTaskContext [renameTask] "c"
      = some ⟨renameTask, none, renameTask⟩ ∧
    topLookup (applyRename [renameTask] "c" "New Name" true "c2" 7) "c2"
      = some ((((renameTask.withId "c2").withName
          "New Name").withCreatedAt 7).withUpdatedAt 7) ∧
    topLookup (applyRename [renameTask] "c" "New Name" true "c2" 7) "c"
      = none := by
  have h := (applyRename_spec [renameTask] "c" "New Name" "c2" 7
    ⟨renameTask, none, renameTask⟩ (by simp) (by rfl)).1 rfl
    (by simp [renameTask])
  exact ⟨by simp, by rfl, h.1, h.2.1⟩

/-! ## Delete with server soft-reset (`TimeTrackerApp.deleteTask`) -/

/-- Embedding of `SyncService.postTask` (mock mode): an IndexedDB `put` into the server
store — an upsert with the same key semantics as the local overwrite. -/
def postTask (server : Store) (task : Task) : Store :=
  if server.any (fun t => t.id == task.id) then
    replaceById server task
  else
    server ++ [task]

theorem postTask_eq_overwriteTask (server : Store) (task : Task) :
    postTask server task = (overwriteTask server task).1 := rfl

/-- Remove, from a sibling list, the first task matching `tid` in the search
order of `findSubtaskRecursive`, by filtering the owning list — the
translation of `context.parent.subtasks = context.parent.subtasks.filter(...)`
applied at the position the resolver found. -/
def removeFirstInList : List Task → String → List Task × Bool
  | [], _ => ([], false)
  | Task.mk i n d c u sd tl sub :: rest, tid =>
      if i == tid then
        (List.filter (fun x => !(x.id == tid))
          (Task.mk i n d c u sd tl sub :: rest), true)
      else
        match removeFirstInList sub tid with
        | (sub', true) => (Task.mk i n d c u sd tl sub' :: rest, true)
        | (_, false) =>
            let r := removeFirstInList rest tid
            (Task.mk i n d c u sd tl sub :: r.1, r.2)

/-- Splice a subtask out of the root aggregate. -/
def removeFirstFromTree (root : Task) (tid : String) : Task :=
  root.withSubtasks (removeFirstInList root.subtasks tid).1

/-- The local-removal step of `deleteTask`: a subtask is spliced out of its
parent's array and the root re-persisted via the overwrite operation; a
top-level task is deleted from the store by key. -/
def removeLocal (store : Store) (ctx : TaskContext) (id : String) : Store :=
  match ctx.parent with
  | some _ => (overwriteTask store (removeFirstFromTree ctx.root id)).1
  | none => deleteFromStore store id

/-- Embedding of `TimeTrackerApp.deleteTask(id)` over the combined world: resolve the
task; when the server knows the id, a confirmed delete first posts the task
with `duration = 0` and `timerLogs = []` to the server (a throw there is
caught and reported, leaving the server store as-is), then removes the local
copy; a local-only task is removed after a plain confirmation. -/
def deleteTaskOp (w : World) (id : String) (confirmed serverThrows : Bool) :
    World :=
  match findTaskContext w.localStore id with
  | none => w
  | some ctx =>
      if (topLookup w.serverStore id).isSome then
        if confirmed then
          { localStore := removeLocal w.localStore ctx id
            serverStore :=
              if serverThrows then w.serverStore
              else postTask w.serverStore
                ((ctx.task.withDuration 0).withTimerLogs (some [])) }
        else w
      else
        if confirmed then
          { localStore := removeLocal w.localStore ctx id
            serverStore := w.serverStore }
        else w

/-- C9: a confirmed delete of a server-known top-level task upserts the same
task with `duration 0` and empty `timerLogs` on the server — the server
record stays present (never a hard delete) — and removes the local copy; the
local removal happens even when the server upsert throws, and without
confirmation nothing changes. -/
theorem deleteTask_soft_reset (w : World) (id : String) (ctx : TaskContext)
    (srv : Task) (hctx : findTaskContext w.localStore id = some ctx)
    (hroot : ctx.parent = none)
    (hsrv : topLookup w.serverStore id = some srv) :
    (∀ b, topLookup (deleteTaskOp w id true b).localStore id = none) ∧
    (∀ b, (topLookup (deleteTaskOp w id true b).serverStore id).isSome
      = true) ∧
    topLookup (deleteTaskOp w id true false).serverStore id
      = some ((ctx.task.withDuration 0).withTimerLogs (some [])) ∧
    ((ctx.task.withDuration 0).withTimerLogs (some [])).duration = 0 ∧
    ((ctx.task.withDuration 0).withTimerLogs (some [])).timerLogs
      = some [] ∧
    (deleteTaskOp w id true true).serverStore = w.serverStore ∧
    (∀ b, deleteTaskOp w id false b = w) := by
  have hid : ctx.task.id = id :=
    (findTaskContext_some_props w.localStore id ctx hctx).1
  have heval : ∀ b, deleteTaskOp w id true b
      = { localStore := deleteFromStore w.localStore id
          serverStore :=
            if b then w.serverStore
            else postTask w.serverStore
              ((ctx.task.withDuration 0).withTimerLogs (some [])) } := by
    intro b
    unfold deleteTaskOp
    rw [hctx]
    dsimp only
    rw [hsrv]
    dsimp only [Option.isSome_some]
    rw [if_pos rfl, if_pos rfl]
    unfold removeLocal
    rw [hroot]
  have hpost : topLookup (postTask w.serverStore
      ((ctx.task.withDuration 0).withTimerLogs (some []))) id
      = some ((ctx.task.withDuration 0).withTimerLogs (some [])) := by
    rw [postTask_eq_overwriteTask]
    have := topLookup_overwriteTask_self w.serverStore
      ((ctx.task.withDuration 0).withTimerLogs (some []))
    rwa [Task.id_withTimerLogs, Task.id_withDuration, hid] at this
  refine ⟨?_, ?_, ?_, by simp, by simp, ?_, ?_⟩
  · intro b
    rw [heval b]
    exact topLookup_deleteFromStore_self w.localStore id
  · intro b
    rw [heval b]
    cases b
    · dsimp only
      rw [if_neg (by simp), hpost]
      rfl
    · dsimp only
      rw [if_pos rfl, hsrv]
      rfl
  · rw [heval false]
    dsimp only
    rw [if_neg (by simp)]
    exact hpost
  · rw [heval true]
    dsimp only
    rw [if_pos rfl]
  · intro b
    unfold deleteTaskOp
    rw [hctx]
    dsimp only
    rw [hsrv]
    dsimp only [Option.isSome_some]
    rw [if_pos rfl, if_neg (by simp)]

/-- The local and server copies of the C9 scenario task. -/
def delTask : Task :=
  Task.mk "d" "D" 40 0 0 none
    (some [⟨"start", "t0", 0⟩, ⟨"stop", "t1", 40⟩]) []

/-- Closed instance of the C9 theorem: the confirmed delete of a
server-known task resets the server copy to duration 0 with empty logs and
removes the local record, in both the throwing and the non-throwing server
case. -/
theorem deleteTask_soft_reset_witness :
    findTaskContext [delTask] "d" = some ⟨delTask, none, delTask⟩ ∧
    topLookup [delTask] "d" = some delTask ∧
    topLookup (deleteTaskOp ⟨[delTask], [delTask]⟩ "d" true false).localStore
        "d" = none ∧
    topLookup (deleteTaskOp ⟨[delTask], [delTask]⟩ "d" true true).localStore
        "d" = none ∧
    topLookup (deleteTaskOp ⟨[delTask], [delTask]⟩ "d" true false).serverStore
        "d" = some ((delTask.withDuration 0).withTimerLogs (some [])) ∧
    (deleteTaskOp ⟨[delTask], [delTask]⟩ "d" true true).serverStore
      = [delTask] := by
  have h := deleteTask_soft_reset ⟨[delTask], [delTask]⟩ "d"
    ⟨delTask, none, delTask⟩ delTask (by rfl) rfl (by rfl)
  exact ⟨by rfl, by rfl, h.1 false, h.1 true, h.2.2.1, h.2.2.2.2.2.1⟩

end WebTimeTracker
